/-
Verification of the message-passing stack (Perfect Link, Uniform Reliable
Broadcast, Lattice Agreement, counting semaphore) of the
`distributed-algorithms` repository.

The development shallowly embeds the C++ sources:
  * the wire codec of `src/perfect_link.cpp` (`_prepare_message`,
    `_decode_message`), with datagrams as lists of byte values (naturals
    below 256) and 32-bit overflow made explicit with `% 2 ^ 32`;
  * the receive loop of `PerfectLink::listen` as a step function on the
    delivered/pending sets;
  * the `UniformReliableBroadcast::listen` handler as a step function on
    the acknowledgement map (the `std::bitset` ack vector is modelled as the
    finite set of process ids whose bit is set, so `popcount` is `card`);
  * the `LatticeAgreement` handlers (`propose`, `_handle_proposal`,
    `_handle_ack`, `_handle_nack`, `_check_nacks`, `_decide`) together with a
    small-step network semantics for one fixed agreement number (the
    per-agreement states stored in `_agreements` are independent of each
    other: every handler reads and writes only the entry of the
    `agreement_nr` carried by the message);
  * `Semaphore::acquire` / `Semaphore::release`, serialized by the internal
    mutex, as a run over a list of operations.

`std::unordered_map` lookups with `try_emplace` are modelled as total
functions into the entry type with the default-constructed entry as the
value for absent keys; where the distinction absent/present matters
(`try_emplace`'s boolean in URB) the map is a function into `Option`.
-/
import Mathlib

/-! ## Wire codec of `src/perfect_link.cpp` -/

/-- `PerfectLink::MAX_MESSAGE_SIZE` from `perfect_link.hpp`. -/
def MAX_MESSAGE_SIZE : ℕ := 64

/-- Size of the fixed header `[is_ack, ...seq_nr, ...process_id]`:
`1 + sizeof(SeqType) + sizeof(IdType)` bytes (the sequence number is 32-bit,
the process id one byte). -/
def HEADER_SIZE : ℕ := 1 + 4 + 1

/-- One header byte of the sequence number as computed by
`_prepare_message`: the C++ writes `(seq_nr << (8 * i)) & 0xff` where
`seq_nr` is an unsigned 32-bit integer, so the shift wraps modulo `2 ^ 32`
and then the low byte is kept. -/
def seqHeaderByte (seq i : ℕ) : ℕ := seq * 2 ^ (8 * i) % 2 ^ 32 % 256

/-- `PerfectLink::_prepare_message` of `src/perfect_link.cpp`:
`message = [is_ack, ...seq_nr, ...process_id, ...data]`, failing
(`throw`) when the total exceeds `MAX_MESSAGE_SIZE`. -/
def prepareMessage (id seq : ℕ) (data : List ℕ) (is_ack : Bool) :
    Option (List ℕ) :=
  if HEADER_SIZE + data.length > MAX_MESSAGE_SIZE then none
  else
    some ((if is_ack then 1 else 0) ::
      ((List.range 4).map fun i => seqHeaderByte seq i) ++
      [id % 256] ++ data)

/-- `PerfectLink::_decode_message` of `src/perfect_link.cpp`: reads
`is_ack` from byte 0, the sequence number little-endian from bytes 1..4
(`seq_nr |= message[i + 1] << (8 * i)`; the bitwise or of the disjoint
byte positions is their sum since datagram bytes are below 256), the
process id from byte 5, and the payload as bytes `[6, message_size)`. -/
def decodeMessage (msg : List ℕ) (message_size : ℕ) :
    Bool × ℕ × ℕ × List ℕ :=
  (decide (msg.getD 0 0 ≠ 0),
   ((List.range 4).map fun i => msg.getD (i + 1) 0 * 2 ^ (8 * i)).sum,
   msg.getD 5 0,
   (msg.take message_size).drop 6)

/-- `_decode_message` builds the payload as
`std::vector(message.data() + 6, message.data() + message_size)`; that
iterator range is valid only when the begin does not lie past the end,
i.e. when the datagram is at least `HEADER_SIZE` bytes long. The function
performs no such check itself. -/
def decodeDataRangeValid (message_size : ℕ) : Prop :=
  HEADER_SIZE ≤ message_size

/-! ## The receive loop of `PerfectLink::listen` -/

/-- A datagram as decoded by `_decode_message`. -/
structure Datagram where
  is_ack : Bool
  seq : ℕ
  pid : ℕ
  data : List ℕ

/-- The state touched by the receive loop: the `_pending_for_ack` map
(keyed by local sequence number) and the `_delivered` set of
`(process_id, seq_nr)` pairs. -/
structure PLState where
  pending : Finset ℕ
  delivered : Finset (ℕ × ℕ)

/-- Freshly constructed `PerfectLink`: both containers empty. -/
def plInit : PLState := ⟨∅, ∅⟩

/-- One iteration of the body of `PerfectLink::listen` after a successful
`recvfrom` and decode (lines 154-178 of `src/perfect_link.cpp`). Returns
the new state, whether the user callback was invoked, and the sequence
number echoed in an outgoing ACK (if one is sent). An ACK receipt erases
the pending entry; a non-ACK receipt invokes the callback exactly when
`(process_id, seq_nr)` is not yet in `_delivered`, inserts the pair, and
always answers with an ACK carrying the received sequence number. -/
def plStep (st : PLState) (d : Datagram) : PLState × Bool × Option ℕ :=
  if d.is_ack then
    ({ st with pending := st.pending.erase d.seq }, false, none)
  else if (d.pid, d.seq) ∈ st.delivered then
    (st, false, some d.seq)
  else
    ({ st with delivered := insert (d.pid, d.seq) st.delivered },
     true, some d.seq)

/-- Number of invocations of the user callback for the pair `(p, s)` over
a run of the receive loop on the datagram list `ds` starting from `st`. -/
def plFiredCount (st : PLState) (ds : List Datagram) (p s : ℕ) : ℕ :=
  match ds with
  | [] => 0
  | d :: rest =>
      (if d.pid = p ∧ d.seq = s ∧ (plStep st d).2.1 = true then 1 else 0) +
        plFiredCount (plStep st d).1 rest p s

/-! ## `Semaphore` (`src/semaphore.cpp`) -/

/-- The two operations of the counting semaphore. -/
inductive SemOp where
  | acquire
  | release
deriving DecidableEq

/-- A serialized history of semaphore operations, starting from count
`c`. `acquire` waits on the condition variable until the count is
strictly positive and then decrements it by one, so a history in which an
`acquire` runs at count `0` is impossible (`none`); `release` increments
the count by one. Returns the final count. -/
def semRun : ℕ → List SemOp → Option ℕ
  | c, [] => some c
  | c, SemOp.acquire :: ops => if c = 0 then none else semRun (c - 1) ops
  | c, SemOp.release :: ops => semRun (c + 1) ops

/-- Number of completed `acquire` operations in a history. -/
def acqCount : List SemOp → ℕ
  | [] => 0
  | SemOp.acquire :: ops => acqCount ops + 1
  | SemOp.release :: ops => acqCount ops

/-- Number of completed `release` operations in a history. -/
def relCount : List SemOp → ℕ
  | [] => 0
  | SemOp.acquire :: ops => relCount ops
  | SemOp.release :: ops => relCount ops + 1

/-! ## `UniformReliableBroadcast::listen` -/

/-- The majority threshold `processes().size() / 2 + 1`. -/
def urbMajority (n : ℕ) : ℕ := n / 2 + 1

/-- The `_acknowledged` map from `BroadcastId` to ack vector. A missing
entry is `none` (`try_emplace` reports insertion through its boolean);
the `std::bitset` is modelled as the finite set of process ids whose bit
is set, so its `count()` (popcount) is the set's cardinality. -/
structure URBState where
  acknowledged : ℕ → Option (Finset ℕ)

/-- Freshly constructed `UniformReliableBroadcast`: empty map. -/
def urbInit : URBState := ⟨fun _ => none⟩

/-- One invocation of the `listen` handler of
`src/uniform_reliable_broadcast.cpp` (lines 24-58) on a batch received
from PL sender `sender` carrying BroadcastId `bid`:
`try_emplace` the entry (`wasNew` is the insertion flag), record
`had_acked`, set the sender's bit, and compute
`should_deliver = !had_acked && popcount == n / 2 + 1`.
Returns `(state', should_deliver, wasNew)`; `wasNew` is `should_broadcast`,
the echo condition. -/
def urbStep (n : ℕ) (st : URBState) (sender bid : ℕ) :
    URBState × Bool × Bool :=
  let wasNew := (st.acknowledged bid).isNone
  let acks := (st.acknowledged bid).getD ∅
  let acks' := insert sender acks
  let shouldDeliver := decide (sender ∉ acks ∧ acks'.card = urbMajority n)
  (⟨Function.update st.acknowledged bid (some acks')⟩, shouldDeliver, wasNew)

/-- Number of handler invocations in which the delivery predicate fired
for BroadcastId `bid`, over a run on the received list `evs` of
`(sender, BroadcastId)` pairs. -/
def urbDeliverCount (n : ℕ) (st : URBState) (evs : List (ℕ × ℕ))
    (bid : ℕ) : ℕ :=
  match evs with
  | [] => 0
  | (s, b) :: rest =>
      (if b = bid ∧ (urbStep n st s b).2.1 = true then 1 else 0) +
        urbDeliverCount n (urbStep n st s b).1 rest bid

/-! ## `LatticeAgreement` (`src/lattice_agreement.cpp`)

All definitions below are for one fixed agreement number: every handler
of the C++ reads and writes only the `_agreements` entry of the
`agreement_nr` carried by the message, so distinct agreement numbers
evolve independently. Values (`AgreementType`, `uint32_t`) are naturals;
only set operations are performed on them. -/

/-- `LatticeAgreement::Agreement` (per agreement number). -/
structure Agreement where
  ack_count : ℕ
  nack_count : ℕ
  proposed_value : Finset ℕ
  accepted_value : Finset ℕ
  proposal_nr : ℕ
  has_decided : Bool
deriving DecidableEq

/-- Default-constructed `Agreement` as produced by `try_emplace`. -/
def Agreement.init : Agreement := ⟨0, 0, ∅, ∅, 0, false⟩

/-- In-flight messages of one agreement. A `proposal` is addressed to
`dst` by the BEB fan-out; `ack` and `nack` are unicast back to the
proposer (`_handle_ack` never inspects the PL sender). `ack` carries no
values; `nack` carries the difference set. The `proposal_nr` is echoed in
replies. -/
inductive Msg where
  | proposal (src dst pnr : ℕ) (values : Finset ℕ)
  | ack (dst pnr : ℕ)
  | nack (dst pnr : ℕ) (values : Finset ℕ)
deriving DecidableEq

/-- The value set carried by a message (empty for an `ack`). -/
def msgValues : Msg → Finset ℕ
  | Msg.proposal _ _ _ values => values
  | Msg.ack _ _ => ∅
  | Msg.nack _ _ values => values

/-- The proposer a message concerns: the source of a `proposal`, the
destination of an `ack`/`nack` (replies only ever go to proposers). -/
def proposerOf : Msg → ℕ
  | Msg.proposal src _ _ _ => src
  | Msg.ack dst _ => dst
  | Msg.nack dst _ _ => dst

/-- `LatticeAgreement::_decide` (without the callback and semaphore):
sets the latch and, when the decided set has the maximal size
`_max_unique_values`, folds `proposed_value` into `accepted_value`. The
callback argument is `proposed_value` at this point. -/
def decideAg (maxU : ℕ) (ag : Agreement) : Agreement :=
  { ag with
    has_decided := true,
    accepted_value :=
      if ag.proposed_value.card = maxU then
        ag.accepted_value ∪ ag.proposed_value
      else ag.accepted_value }

/-- `LatticeAgreement::_broadcast_proposal`: one `Proposal` message per
process of the membership map (BEB broadcasts to everyone, self
included), carrying the current `proposal_nr` and `proposed_value`. -/
def broadcastProposal (n src : ℕ) (ag : Agreement) : List Msg :=
  (List.range n).map fun dst => Msg.proposal src dst ag.proposal_nr ag.proposed_value

/-- `LatticeAgreement::_check_nacks`: when
`2 * (ack_count + nack_count) >= N`, advance the round — increment
`proposal_nr`, reset both counters and broadcast the enlarged proposal. -/
def checkNacks (n i : ℕ) (ag : Agreement) : Agreement × List Msg :=
  if n ≤ 2 * (ag.ack_count + ag.nack_count) then
    let ag2 := { ag with
      proposal_nr := ag.proposal_nr + 1, ack_count := 0, nack_count := 0 }
    (ag2, broadcastProposal n i ag2)
  else (ag, [])

/-- `LatticeAgreement::_handle_ack` at process `i` in a group of `n`:
drop when already decided or the round is stale; otherwise count the ack
and decide as soon as `2 * ack_count >= N`, else run `_check_nacks`.
Returns the new agreement state, outgoing messages, and the decided set
handed to the user callback (if the handler decided). -/
def handleAck (n maxU i pnr : ℕ) (ag : Agreement) :
    Agreement × List Msg × Option (Finset ℕ) :=
  if ag.has_decided = true ∨ ¬ag.proposal_nr = pnr then (ag, [], none)
  else
    let ag1 := { ag with ack_count := ag.ack_count + 1 }
    if n ≤ 2 * ag1.ack_count then
      (decideAg maxU ag1, [], some ag1.proposed_value)
    else
      ((checkNacks n i ag1).1, (checkNacks n i ag1).2, none)

/-- `LatticeAgreement::_handle_nack` at process `i`: drop when already
decided or the round is stale; otherwise union the carried difference
into `proposed_value`, count the nack, decide immediately when the
proposal reached the maximal size, else run `_check_nacks`. -/
def handleNack (n maxU i pnr : ℕ) (values : Finset ℕ) (ag : Agreement) :
    Agreement × List Msg × Option (Finset ℕ) :=
  if ag.has_decided = true ∨ ¬ag.proposal_nr = pnr then (ag, [], none)
  else
    let ag1 := { ag with
      proposed_value := ag.proposed_value ∪ values,
      nack_count := ag.nack_count + 1 }
    if ag1.proposed_value.card = maxU then
      (decideAg maxU ag1, [], some ag1.proposed_value)
    else
      ((checkNacks n i ag1).1, (checkNacks n i ag1).2, none)

/-- `LatticeAgreement::_handle_proposal` (acceptor side) on a proposal
from `src` with round `pnr`: the difference is the acker's
`accepted_value` minus the incoming values, the incoming values are
unioned into `accepted_value`, and the reply is an `Ack` when the
difference is empty, otherwise a `Nack` carrying the difference. -/
def handleProposal (src pnr : ℕ) (values : Finset ℕ) (ag : Agreement) :
    Agreement × Msg :=
  if ag.accepted_value \ values = ∅ then
    ({ ag with accepted_value := ag.accepted_value ∪ values },
     Msg.ack src pnr)
  else
    ({ ag with accepted_value := ag.accepted_value ∪ values },
     Msg.nack src pnr (ag.accepted_value \ values))

/-- The per-agreement core of `LatticeAgreement::propose` at process `i`:
insert the user values into `proposed_value`; if its size already equals
`_max_unique_values`, decide locally without broadcasting, else
broadcast a `Proposal`. -/
def proposeAg (n maxU i : ℕ) (vals : Finset ℕ) (ag : Agreement) :
    Agreement × List Msg × Option (Finset ℕ) :=
  let ag1 := { ag with proposed_value := ag.proposed_value ∪ vals }
  if ag1.proposed_value.card = maxU then
    (decideAg maxU ag1, [], some ag1.proposed_value)
  else
    (ag1, broadcastProposal n i ag1, none)

/-- The dispatch switch of `LatticeAgreement::listen` on the decoded
message kind byte (`Proposal = 0, Ack = 1, Nack = 2`): the default case
is `assert(false)`, a no-op in release builds, so the handler returns
with no state change and no outgoing message. `me` is the local process
id, `sender` the PL sender of the datagram. -/
def laDispatch (n maxU me sender kind pnr : ℕ) (values : Finset ℕ)
    (ag : Agreement) : Agreement × List Msg × Option (Finset ℕ) :=
  match kind with
  | 0 =>
      ((handleProposal sender pnr values ag).1,
       [(handleProposal sender pnr values ag).2], none)
  | 1 => handleAck n maxU me pnr ag
  | 2 => handleNack n maxU me pnr values ag
  | _ => (ag, [], none)

/-- The whole-object state for `LatticeAgreement::propose`: the
`_agreement_nr` counter and the `_agreements` map (total, with the
default-constructed entry for absent keys, matching `try_emplace`). -/
structure LAState where
  agreement_nr : ℕ
  agreements : ℕ → Agreement

/-- Freshly constructed `LatticeAgreement`. -/
def LAState.init : LAState := ⟨0, fun _ => Agreement.init⟩

/-- `LatticeAgreement::propose` (lines 19-36): operate on the entry of
the current `_agreement_nr`, then increment `_agreement_nr` — the
increment sits after the `if`/`else`, so it happens on both the
local-decide and the broadcast path. -/
def proposeLA (n maxU i : ℕ) (st : LAState) (vals : Finset ℕ) :
    LAState × List Msg × Option (Finset ℕ) :=
  let r := proposeAg n maxU i vals (st.agreements st.agreement_nr)
  ({ agreement_nr := st.agreement_nr + 1,
     agreements := Function.update st.agreements st.agreement_nr r.1 },
   r.2.1, r.2.2)

/-! ### Network semantics for one agreement number -/

/-- Global state of one agreement over a group of processes `0, …, n-1`:
per-process agreement entries, in-flight messages, the set each process
passed to `propose` (if it proposed this agreement number — every node
calls `propose` at most once per number, since `_agreement_nr` is
incremented on each call), and the set each deciding process handed to
its decision callback. -/
structure LANet where
  states : ℕ → Agreement
  msgs : List Msg
  inputs : ℕ → Option (Finset ℕ)
  decision : ℕ → Option (Finset ℕ)

/-- Initial network: default entries, no messages, nobody proposed. -/
def LANet.init : LANet :=
  ⟨fun _ => Agreement.init, [], fun _ => none, fun _ => none⟩

/-- Record a decision callback value, when one was produced. -/
def updDecision (f : ℕ → Option (Finset ℕ)) (i : ℕ) :
    Option (Finset ℕ) → ℕ → Option (Finset ℕ)
  | some d => Function.update f i (some d)
  | none => f

/-- A value is in the union of all inputs proposed so far. -/
def InUf (inputs : ℕ → Option (Finset ℕ)) (x : ℕ) : Prop :=
  ∃ j v, inputs j = some v ∧ x ∈ v

/-- A value is in the union of all inputs proposed in the network. -/
def InU (net : LANet) (x : ℕ) : Prop := InUf net.inputs x

/-- One step of the agreement protocol: a process proposes (at most once
per agreement number), or one in-flight message is delivered to its
destination and handled by the code above. Message delivery removes the
message from flight — PL gives exactly-once delivery per send. -/
inductive LAStep (n maxU : ℕ) : LANet → LANet → Prop where
  | propose (net net' : LANet) (i : ℕ) (vals : Finset ℕ)
      (ag' : Agreement) (out : List Msg) (dec : Option (Finset ℕ))
      (hi : i < n)
      (hnone : net.inputs i = none)
      (hr : proposeAg n maxU i vals (net.states i) = (ag', out, dec))
      (hnet : net' =
        { states := Function.update net.states i ag',
          msgs := net.msgs ++ out,
          inputs := Function.update net.inputs i (some vals),
          decision := updDecision net.decision i dec }) :
      LAStep n maxU net net'
  | deliverProposal (net net' : LANet) (src dst pnr : ℕ)
      (values : Finset ℕ) (l1 l2 : List Msg) (ag' : Agreement) (reply : Msg)
      (hm : net.msgs = l1 ++ Msg.proposal src dst pnr values :: l2)
      (hr : handleProposal src pnr values (net.states dst) = (ag', reply))
      (hnet : net' =
        { states := Function.update net.states dst ag',
          msgs := (l1 ++ l2) ++ [reply],
          inputs := net.inputs,
          decision := net.decision }) :
      LAStep n maxU net net'
  | deliverAck (net net' : LANet) (dst pnr : ℕ) (l1 l2 : List Msg)
      (ag' : Agreement) (out : List Msg) (dec : Option (Finset ℕ))
      (hm : net.msgs = l1 ++ Msg.ack dst pnr :: l2)
      (hr : handleAck n maxU dst pnr (net.states dst) = (ag', out, dec))
      (hnet : net' =
        { states := Function.update net.states dst ag',
          msgs := (l1 ++ l2) ++ out,
          inputs := net.inputs,
          decision := updDecision net.decision dst dec }) :
      LAStep n maxU net net'
  | deliverNack (net net' : LANet) (dst pnr : ℕ) (values : Finset ℕ)
      (l1 l2 : List Msg) (ag' : Agreement) (out : List Msg)
      (dec : Option (Finset ℕ))
      (hm : net.msgs = l1 ++ Msg.nack dst pnr values :: l2)
      (hr : handleNack n maxU dst pnr values (net.states dst) = (ag', out, dec))
      (hnet : net' =
        { states := Function.update net.states dst ag',
          msgs := (l1 ++ l2) ++ out,
          inputs := net.inputs,
          decision := updDecision net.decision dst dec }) :
      LAStep n maxU net net'

/-- Network states reachable from the initial one. -/
inductive LAReachable (n maxU : ℕ) : LANet → Prop where
  | init : LAReachable n maxU LANet.init
  | step (net net' : LANet) (h : LAReachable n maxU net)
      (hs : LAStep n maxU net net') : LAReachable n maxU net'

/-- The validity invariant: every input is contained in its proposer's
`proposed_value`; all `proposed_value`s, `accepted_value`s and in-flight
value sets stay inside the union of the proposed inputs; proposals in
flight originate from proposers and replies are addressed to proposers;
decided sets sit between the decider's input and the union of inputs. -/
structure InvC1 (net : LANet) : Prop where
  input_sub : ∀ i v, net.inputs i = some v → v ⊆ (net.states i).proposed_value
  prop_sub : ∀ i, ∀ x ∈ (net.states i).proposed_value, InU net x
  acc_sub : ∀ i, ∀ x ∈ (net.states i).accepted_value, InU net x
  msg_sub : ∀ m ∈ net.msgs, ∀ x ∈ msgValues m, InU net x
  msg_prop : ∀ m ∈ net.msgs, (net.inputs (proposerOf m)).isSome = true
  dec_ok : ∀ i d, net.decision i = some d →
    (∃ v, net.inputs i = some v ∧ v ⊆ d) ∧ ∀ x ∈ d, InU net x

/-! ### Concrete states used in the counterexamples and witnesses -/

/-- An agreement entry that has already decided (on the set `{1}`). -/
def decidedAgExample : Agreement := ⟨0, 0, {1}, ∅, 0, true⟩

/-- Agreement entry of process 0 after it proposed `{5}` with
`unique_proposals = 1` and decided locally (the decided full set is
folded into `accepted_value`). -/
def c1AgD : Agreement := ⟨0, 0, {5}, {5}, 0, true⟩

/-- Network after process 0 (of a single-process group, with
`unique_proposals = 1`) proposes `{5}` and decides locally. -/
def c1WitNet : LANet :=
  { states := Function.update LANet.init.states 0 c1AgD,
    msgs := LANet.init.msgs ++ [],
    inputs := Function.update LANet.init.inputs 0 (some {5}),
    decision := updDecision LANet.init.decision 0 (some {5}) }

/-- Node 0 right after proposing `{1}` (n = 2, `unique_proposals` = 3). -/
def c2AgP0 : Agreement := ⟨0, 0, {1}, ∅, 0, false⟩

/-- Node 1 right after proposing `{2}`. -/
def c2AgP1 : Agreement := ⟨0, 0, {2}, ∅, 0, false⟩

/-- Node 0 after handling its own proposal (it accepted `{1}`). -/
def c2AgA0 : Agreement := ⟨0, 0, {1}, {1}, 0, false⟩

/-- Node 0 after its self-ack: one ack, `2 * 1 >= 2`, decided `{1}`. -/
def c2AgD0 : Agreement := ⟨1, 0, {1}, {1}, 0, true⟩

/-- Node 1 after handling its own proposal (it accepted `{2}`). -/
def c2AgA1 : Agreement := ⟨0, 0, {2}, {2}, 0, false⟩

/-- Node 1 after its self-ack: decided `{2}`. -/
def c2AgD1 : Agreement := ⟨1, 0, {2}, {2}, 0, true⟩

/-- Two-process network, after node 0 proposed `{1}`. -/
def c2Net1 : LANet :=
  { states := Function.update LANet.init.states 0 c2AgP0,
    msgs := [Msg.proposal 0 0 0 {1}, Msg.proposal 0 1 0 {1}],
    inputs := Function.update LANet.init.inputs 0 (some {1}),
    decision := LANet.init.decision }

/-- … then node 1 proposed `{2}`. -/
def c2Net2 : LANet :=
  { states := Function.update c2Net1.states 1 c2AgP1,
    msgs := [Msg.proposal 0 0 0 {1}, Msg.proposal 0 1 0 {1},
             Msg.proposal 1 0 0 {2}, Msg.proposal 1 1 0 {2}],
    inputs := Function.update c2Net1.inputs 1 (some {2}),
    decision := c2Net1.decision }

/-- … then node 0 received its own proposal and acked itself. -/
def c2Net3 : LANet :=
  { states := Function.update c2Net2.states 0 c2AgA0,
    msgs := [Msg.proposal 0 1 0 {1}, Msg.proposal 1 0 0 {2},
             Msg.proposal 1 1 0 {2}, Msg.ack 0 0],
    inputs := c2Net2.inputs,
    decision := c2Net2.decision }

/-- … then node 0 received the self-ack and decided `{1}`. -/
def c2Net4 : LANet :=
  { states := Function.update c2Net3.states 0 c2AgD0,
    msgs := [Msg.proposal 0 1 0 {1}, Msg.proposal 1 0 0 {2},
             Msg.proposal 1 1 0 {2}],
    inputs := c2Net3.inputs,
    decision := updDecision c2Net3.decision 0 (some {1}) }

/-- … then node 1 received its own proposal and acked itself. -/
def c2Net5 : LANet :=
  { states := Function.update c2Net4.states 1 c2AgA1,
    msgs := [Msg.proposal 0 1 0 {1}, Msg.proposal 1 0 0 {2},
             Msg.ack 1 0],
    inputs := c2Net4.inputs,
    decision := c2Net4.decision }

/-- … then node 1 received the self-ack and decided `{2}`. -/
def c2Net6 : LANet :=
  { states := Function.update c2Net5.states 1 c2AgD1,
    msgs := [Msg.proposal 0 1 0 {1}, Msg.proposal 1 0 0 {2}],
    inputs := c2Net5.inputs,
    decision := updDecision c2Net5.decision 1 (some {2}) }

/-! ## Theorems -/

/-! ### Codec (claim C3) -/

/-- Claim C3 (codec round-trip, settled against the code): the claim
states that decoding an encoded datagram returns the same fields, in
particular that the 4-byte `seq_nr` survives for every 32-bit value. It
does not: `_prepare_message` writes `(seq_nr << (8 * i)) & 0xff` — a left
shift where the little-endian layout (and the paired `_decode_message`,
which reads `message[i + 1] << (8 * i)`) requires a right shift — so every
header byte past the first is `0` and decoding returns `seq_nr mod 256`.
At `seq_nr = 256` (sender id 1, no payload, not an ACK) the decoded
sequence number is `0`, not `256`. -/
theorem claim_C3_seqnr_roundtrip_fails :
    (prepareMessage 1 256 [] false).map
      (fun m => (decodeMessage m m.length).2.1) = some 0 ∧
    (256 : ℕ) ≠ 0 := by
  constructor
  · decide
  · decide

/-! ### Protocol violations (claim C9) -/

/-- Claim C9 (protocol-violation handling): the checkable halves. An
undersized datagram violates the iterator-range precondition of the
payload extraction in `_decode_message` (`decodeDataRangeValid` fails at
`message_size = 1`; the code performs no size check, so the receive path
does not drop such a datagram but runs into an invalid
`std::vector(first, last)` range). An LA message with an unknown kind
byte (here `3` and `200`) is silently dropped by the dispatch switch:
no state change, no outgoing message, no decision callback. -/
theorem claim_C9_protocol_violation :
    ¬decodeDataRangeValid 1 ∧
    ∀ (n maxU me sender pnr : ℕ) (values : Finset ℕ) (ag : Agreement),
      laDispatch n maxU me sender 3 pnr values ag = (ag, [], none) ∧
      laDispatch n maxU me sender 200 pnr values ag = (ag, [], none) := by
  refine ⟨by simp [decodeDataRangeValid, HEADER_SIZE],
    fun n maxU me sender pnr values ag => ⟨rfl, rfl⟩⟩

/-! ### Semaphore (claim C10) -/

/-- Claim C10 (semaphore invariant): along any serialized history that
the semaphore admits (an `acquire` only completes after observing a
strictly positive count, decrementing it by one; a `release` increments
it by one), the number of completed acquires never exceeds the initial
count plus the number of completed releases, and the final count is
exactly the initial count plus releases minus acquires (hence never
negative). -/
theorem claim_C10_semaphore (c0 : ℕ) (ops : List SemOp) (c' : ℕ)
    (h : semRun c0 ops = some c') :
    acqCount ops ≤ c0 + relCount ops ∧
    c' + acqCount ops = c0 + relCount ops := by
  induction ops generalizing c0 with
  | nil =>
      simp only [semRun, Option.some.injEq] at h
      subst h
      simp [acqCount, relCount]
  | cons op rest ih =>
      cases op with
      | acquire =>
          simp only [semRun] at h
          split at h
          · exact absurd h (by simp)
          · rename_i hc
            obtain ⟨h1, h2⟩ := ih (c0 - 1) h
            have hc0 : 1 ≤ c0 := Nat.one_le_iff_ne_zero.mpr hc
            constructor
            · simp only [acqCount, relCount]
              omega
            · simp only [acqCount, relCount]
              omega
      | release =>
          simp only [semRun] at h
          obtain ⟨h1, h2⟩ := ih (c0 + 1) h
          constructor
          · simp only [acqCount, relCount]
            omega
          · simp only [acqCount, relCount]
            omega

/-- Witness for claim C10 at the history
`[acquire, release, acquire]` from initial count `1`. -/
theorem claim_C10_witness :
    semRun 1 [SemOp.acquire, SemOp.release, SemOp.acquire] = some 0 ∧
    (acqCount [SemOp.acquire, SemOp.release, SemOp.acquire] ≤
       1 + relCount [SemOp.acquire, SemOp.release, SemOp.acquire] ∧
     0 + acqCount [SemOp.acquire, SemOp.release, SemOp.acquire] =
       1 + relCount [SemOp.acquire, SemOp.release, SemOp.acquire]) :=
  ⟨by decide,
   claim_C10_semaphore 1 [SemOp.acquire, SemOp.release, SemOp.acquire] 0
     (by decide)⟩

/-! ### Perfect link receive loop (claim C4) -/

/-- The delivered set only grows under a receive step. -/
theorem plStep_delivered_mono (st : PLState) (d : Datagram) :
    st.delivered ⊆ (plStep st d).1.delivered := by
  unfold plStep
  split
  · exact Finset.Subset.refl _
  · split
    · exact Finset.Subset.refl _
    · exact Finset.subset_insert _ _

/-- Once `(p, s)` is in the delivered set, no later receipt fires the
callback for it. -/
theorem plFiredCount_zero (st : PLState) (ds : List Datagram) (p s : ℕ)
    (h : (p, s) ∈ st.delivered) : plFiredCount st ds p s = 0 := by
  induction ds generalizing st with
  | nil => rfl
  | cons d rest ih =>
      have hmem : (p, s) ∈ (plStep st d).1.delivered :=
        plStep_delivered_mono st d h
      have hfire : ¬(d.pid = p ∧ d.seq = s ∧ (plStep st d).2.1 = true) := by
        rintro ⟨hp, hs, hf⟩
        unfold plStep at hf
        split at hf
        · simp at hf
        · split at hf
          · simp at hf
          · rename_i hnm
            exact hnm (hp ▸ hs ▸ h)
      simp only [plFiredCount, if_neg hfire, ih _ hmem, Nat.zero_add]

/-- The callback fires at most once for each `(p, s)` over any run. -/
theorem plFiredCount_le_one (st : PLState) (ds : List Datagram) (p s : ℕ) :
    plFiredCount st ds p s ≤ 1 := by
  induction ds generalizing st with
  | nil => exact Nat.zero_le 1
  | cons d rest ih =>
      by_cases hfire : d.pid = p ∧ d.seq = s ∧ (plStep st d).2.1 = true
      · obtain ⟨hp, hs, hf⟩ := hfire
        have hmem : (p, s) ∈ (plStep st d).1.delivered := by
          unfold plStep at hf ⊢
          split at hf
          · simp at hf
          · split at hf
            · simp at hf
            · rename_i hack hnm
              simp only [if_neg hack, if_neg hnm]
              exact hp ▸ hs ▸ Finset.mem_insert_self _ _
        simp only [plFiredCount, plFiredCount_zero _ _ _ _ hmem]
        rw [if_pos ⟨hp, hs, hf⟩]
      · simp only [plFiredCount, if_neg hfire, Nat.zero_add]
        exact ih _

/-- Claim C4 (PL exactly-once): in the receive loop, the user callback is
invoked exactly when the datagram is not an ACK and its
`(process_id, seq_nr)` pair is not yet in the delivered set; an ACK
echoing the received sequence number is sent back for every non-ACK
receipt (duplicates included); and over a whole run from the initial
state the callback fires at most once per pair. -/
theorem claim_C4_pl_exactly_once :
    ∀ (st : PLState) (d : Datagram) (ds : List Datagram) (p s : ℕ),
      ((plStep st d).2.1 = true ↔
        d.is_ack = false ∧ (d.pid, d.seq) ∉ st.delivered) ∧
      ((plStep st d).2.2 = if d.is_ack = true then none else some d.seq) ∧
      plFiredCount plInit ds p s ≤ 1 := by
  intro st d ds p s
  refine ⟨?_, ?_, plFiredCount_le_one _ _ _ _⟩
  · unfold plStep
    split
    · rename_i hack
      simp [hack]
    · rename_i hack
      split
      · rename_i hmem
        simp [Bool.not_eq_true _ ▸ hack, hmem]
      · rename_i hmem
        simp only [Bool.not_eq_true] at hack
        simp [hack, hmem]
  · unfold plStep
    split
    · rename_i hack
      simp [hack]
    · rename_i hack
      simp only [Bool.not_eq_true] at hack
      split <;> simp [hack]

/-! ### URB delivery predicate (claims C5, C6) -/

/-- A handler invocation for another BroadcastId leaves `bid`'s ack
vector untouched. -/
theorem urbStep_ack_other (n : ℕ) (st : URBState) (s b bid : ℕ)
    (hne : b ≠ bid) :
    (urbStep n st s b).1.acknowledged bid = st.acknowledged bid := by
  simp only [urbStep]
  exact Function.update_noteq (Ne.symm hne) _ _

/-- Once `bid`'s ack vector has reached the majority cardinality, the
delivery predicate never fires for `bid` again. -/
theorem urbDeliverCount_zero (n : ℕ) (st : URBState) (evs : List (ℕ × ℕ))
    (bid : ℕ) (a : Finset ℕ) (ha : st.acknowledged bid = some a)
    (hcard : urbMajority n ≤ a.card) :
    urbDeliverCount n st evs bid = 0 := by
  induction evs generalizing st a with
  | nil => rfl
  | cons ev rest ih =>
      obtain ⟨s, b⟩ := ev
      by_cases hb : b = bid
      · subst hb
        have hnd : ¬(s ∉ a ∧ (insert s a).card = urbMajority n) := by
          rintro ⟨hs, hc⟩
          rw [Finset.card_insert_of_not_mem hs] at hc
          omega
        have hdel : (urbStep n st s b).2.1 = false := by
          simp only [urbStep, ha, Option.getD_some]
          exact decide_eq_false hnd
        have hnext : (urbStep n st s b).1.acknowledged b =
            some (insert s a) := by
          simp [urbStep, ha]
        have hcard' : urbMajority n ≤ (insert s a).card :=
          le_trans hcard (Finset.card_le_card (Finset.subset_insert s a))
        simp only [urbDeliverCount, hdel]
        rw [if_neg (by simp), Nat.zero_add]
        exact ih _ _ hnext hcard'
      · have hpres : (urbStep n st s b).1.acknowledged bid =
            st.acknowledged bid := urbStep_ack_other n st s b bid hb
        simp only [urbDeliverCount]
        rw [if_neg (fun hc => hb hc.1), Nat.zero_add]
        exact ih _ _ (hpres.trans ha) hcard

/-- The delivery predicate fires at most once per BroadcastId over any
run of the URB handler. -/
theorem urbDeliverCount_le_one (n : ℕ) (st : URBState)
    (evs : List (ℕ × ℕ)) (bid : ℕ) :
    urbDeliverCount n st evs bid ≤ 1 := by
  induction evs generalizing st with
  | nil => exact Nat.zero_le 1
  | cons ev rest ih =>
      obtain ⟨s, b⟩ := ev
      by_cases hfire : b = bid ∧ (urbStep n st s b).2.1 = true
      · obtain ⟨hb, hdel⟩ := hfire
        subst hb
        have hP : s ∉ (st.acknowledged b).getD ∅ ∧
            (insert s ((st.acknowledged b).getD ∅)).card = urbMajority n := by
          have h := hdel
          simp only [urbStep] at h
          exact of_decide_eq_true h
        have hnext : (urbStep n st s b).1.acknowledged b =
            some (insert s ((st.acknowledged b).getD ∅)) := by
          simp [urbStep]
        have h0 := urbDeliverCount_zero n _ rest b _ hnext
          (le_of_eq hP.2.symm)
        simp only [urbDeliverCount, h0, hdel]
        simp
      · simp only [urbDeliverCount]
        rw [if_neg hfire, Nat.zero_add]
        exact ih _

/-- Claim C5 (URB no duplication): for every BroadcastId, the delivery
predicate — the sender's bit was previously unset and the popcount after
setting it equals exactly `N / 2 + 1` — is true in at most one invocation
of the URB listen handler over any whole run from the initial (empty)
acknowledgement map, so the URB callback delivers each broadcast at most
once per node. -/
theorem claim_C5_urb_no_duplication :
    ∀ (n : ℕ) (evs : List (ℕ × ℕ)) (bid : ℕ),
      urbDeliverCount n urbInit evs bid ≤ 1 :=
  fun n evs bid => urbDeliverCount_le_one n urbInit evs bid

/-- Claim C6 counterexample: the claim quantifies over every `N ≥ 1`,
but at `N = 1` the first sighting of a broadcast has, after setting the
sender's bit, popcount `1 = 1 / 2 + 1`, so `should_deliver` and
`was_new` (`should_broadcast`) are both true in the same invocation —
the code's own assertion `!should_deliver or !should_broadcast` fails. -/
theorem claim_C6_counterexample :
    (urbStep 1 urbInit 1 0).2.1 = true ∧ (urbStep 1 urbInit 1 0).2.2 = true := by
  constructor
  · decide
  · decide

/-- Claim C6 as amended: for every `N ≥ 2` (instead of `N ≥ 1`), in no
invocation of the URB listen handler are `should_deliver` and `was_new`
(`should_broadcast`) both true: a first sighting inserts a fresh ack
vector whose popcount after one bit-set is `1`, strictly below the
majority threshold `N / 2 + 1`. -/
theorem claim_C6_urb_assert_no_both (n : ℕ) (h : 2 ≤ n) (st : URBState)
    (sender bid : ℕ) :
    ¬((urbStep n st sender bid).2.1 = true ∧
      (urbStep n st sender bid).2.2 = true) := by
  rintro ⟨hdel, hnew⟩
  have hnone : st.acknowledged bid = none := by
    have h' := hnew
    simp only [urbStep] at h'
    exact Option.isNone_iff_eq_none.mp h'
  have hP : sender ∉ ((st.acknowledged bid).getD ∅) ∧
      (insert sender ((st.acknowledged bid).getD ∅)).card = urbMajority n := by
    have h' := hdel
    simp only [urbStep] at h'
    exact of_decide_eq_true h'
  rw [hnone] at hP
  simp only [Option.getD_none] at hP
  have hone : (insert sender (∅ : Finset ℕ)).card = 1 := by simp
  rw [hone] at hP
  have hmaj : urbMajority n = 1 := hP.2.symm
  unfold urbMajority at hmaj
  omega

/-- Witness for the amended claim C6 at `N = 2`, empty map, sender 1,
BroadcastId 0. -/
theorem claim_C6_witness :
    2 ≤ 2 ∧
    ¬((urbStep 2 urbInit 1 0).2.1 = true ∧
      (urbStep 2 urbInit 1 0).2.2 = true) :=
  ⟨by decide, claim_C6_urb_assert_no_both 2 (by decide) urbInit 1 0⟩

/-! ### LA decided-latch (claim C7) -/

/-- Claim C7 counterexample: the claim says that once `has_decided` is
set an incoming Proposal causes no state change, but `_handle_proposal`
has no `has_decided` check — on `decidedAgExample` (decided, empty
`accepted_value`) a Proposal carrying `{2}` grows `accepted_value` to
`{2}`, changing the agreement state. -/
theorem claim_C7_counterexample :
    ¬((handleProposal 0 0 {2} decidedAgExample).1 = decidedAgExample) := by
  decide

/-- Claim C7 as amended: once `has_decided` is set, an incoming Ack or
Nack is dropped with the agreement state (all five fields) and the
outgoing queue unchanged, and an incoming Proposal leaves `ack_count`,
`nack_count`, `proposed_value`, `proposal_nr` and `has_decided` unchanged
but may still grow `accepted_value` by the carried values (and still
sends a reply). -/
theorem claim_C7_decided_latch (n maxU i src pnr : ℕ) (values : Finset ℕ)
    (ag : Agreement) (hd : ag.has_decided = true) :
    handleAck n maxU i pnr ag = (ag, [], none) ∧
    handleNack n maxU i pnr values ag = (ag, [], none) ∧
    (handleProposal src pnr values ag).1 =
      { ag with accepted_value := ag.accepted_value ∪ values } := by
  refine ⟨?_, ?_, ?_⟩
  · unfold handleAck
    rw [if_pos (Or.inl hd)]
  · unfold handleNack
    rw [if_pos (Or.inl hd)]
  · unfold handleProposal
    split <;> rfl

/-- Witness for the amended claim C7 at the concrete decided agreement
`decidedAgExample`. -/
theorem claim_C7_witness :
    decidedAgExample.has_decided = true ∧
    (handleAck 2 3 0 0 decidedAgExample = (decidedAgExample, [], none) ∧
     handleNack 2 3 0 0 {5} decidedAgExample = (decidedAgExample, [], none) ∧
     (handleProposal 1 0 {5} decidedAgExample).1 =
       { decidedAgExample with
         accepted_value := decidedAgExample.accepted_value ∪ {5} }) :=
  ⟨rfl, claim_C7_decided_latch 2 3 0 1 0 {5} decidedAgExample rfl⟩

/-! ### LA propose branching (claim C8) -/

/-- Claim C8 counterexample: the claim says that `propose` leaves
`_agreement_nr` unchanged when it decides locally, but the increment sits
after the `if`/`else` in `LatticeAgreement::propose` and runs on both
paths: with `unique_proposals = 1` and proposal `{7}` the node decides
locally without broadcasting, yet `_agreement_nr` still becomes `1`. -/
theorem claim_C8_counterexample :
    (proposeLA 2 1 0 LAState.init {7}).2.1 = [] ∧
    (proposeLA 2 1 0 LAState.init {7}).2.2 = some {7} ∧
    (proposeLA 2 1 0 LAState.init {7}).1.agreement_nr ≠
      LAState.init.agreement_nr := by
  refine ⟨by decide, by decide, by decide⟩

/-- Claim C8 as amended: after inserting the given values, if
`|proposed_value|` equals `unique_proposals` the node decides locally
(the callback gets the inserted set, the current agreement's latch is
set) and does not broadcast; otherwise it broadcasts a Proposal carrying
the enlarged set to every process and does not decide. In both cases
`_agreement_nr` is incremented by one. -/
theorem claim_C8_propose_branching (n maxU i : ℕ) (st : LAState)
    (vals : Finset ℕ) (hn : 0 < n) :
    (proposeLA n maxU i st vals).1.agreement_nr = st.agreement_nr + 1 ∧
    (if ((st.agreements st.agreement_nr).proposed_value ∪ vals).card = maxU then
       (proposeLA n maxU i st vals).2.1 = [] ∧
       (proposeLA n maxU i st vals).2.2 =
         some ((st.agreements st.agreement_nr).proposed_value ∪ vals) ∧
       ((proposeLA n maxU i st vals).1.agreements st.agreement_nr).has_decided
         = true
     else
       (proposeLA n maxU i st vals).2.1 ≠ [] ∧
       (∀ m ∈ (proposeLA n maxU i st vals).2.1, ∃ dst pnr,
          m = Msg.proposal i dst pnr
            ((st.agreements st.agreement_nr).proposed_value ∪ vals)) ∧
       (proposeLA n maxU i st vals).2.2 = none) := by
  constructor
  · rfl
  · by_cases hc :
      ((st.agreements st.agreement_nr).proposed_value ∪ vals).card = maxU
    · rw [if_pos hc]
      refine ⟨?_, ?_, ?_⟩
      · simp [proposeLA, proposeAg, hc]
      · simp [proposeLA, proposeAg, hc]
      · simp [proposeLA, proposeAg, hc, decideAg, Function.update_same]
    · rw [if_neg hc]
      refine ⟨?_, ?_, ?_⟩
      · simp only [proposeLA, proposeAg]
        rw [if_neg hc]
        simp only [broadcastProposal]
        intro hnil
        rw [List.map_eq_nil_iff, List.range_eq_nil] at hnil
        omega
      · intro m hm
        simp only [proposeLA, proposeAg] at hm
        rw [if_neg hc] at hm
        simp only [broadcastProposal, List.mem_map, List.mem_range] at hm
        obtain ⟨dst, _, rfl⟩ := hm
        exact ⟨dst, _, rfl⟩
      · simp [proposeLA, proposeAg, hc]

/-- Witness for the amended claim C8 at `n = 2`, `unique_proposals = 1`,
proposing `{7}` from the initial state (the local-decide branch). -/
theorem claim_C8_witness :
    0 < 2 ∧
    ((proposeLA 2 1 0 LAState.init {7}).1.agreement_nr =
       LAState.init.agreement_nr + 1 ∧
     (if ((LAState.init.agreements LAState.init.agreement_nr).proposed_value
            ∪ {7}).card = 1 then
        (proposeLA 2 1 0 LAState.init {7}).2.1 = [] ∧
        (proposeLA 2 1 0 LAState.init {7}).2.2 =
          some ((LAState.init.agreements LAState.init.agreement_nr).proposed_value
            ∪ {7}) ∧
        ((proposeLA 2 1 0 LAState.init {7}).1.agreements
            LAState.init.agreement_nr).has_decided = true
      else
        (proposeLA 2 1 0 LAState.init {7}).2.1 ≠ [] ∧
        (∀ m ∈ (proposeLA 2 1 0 LAState.init {7}).2.1, ∃ dst pnr,
           m = Msg.proposal 0 dst pnr
             ((LAState.init.agreements LAState.init.agreement_nr).proposed_value
               ∪ {7})) ∧
        (proposeLA 2 1 0 LAState.init {7}).2.2 = none)) :=
  ⟨by decide, claim_C8_propose_branching 2 1 0 LAState.init {7} (by decide)⟩

/-! ### LA handler characterizations -/

/-- `_decide` keeps `proposed_value` and at most folds it into
`accepted_value`. -/
theorem decideAg_spec (maxU : ℕ) (ag : Agreement) :
    (decideAg maxU ag).proposed_value = ag.proposed_value ∧
    ((decideAg maxU ag).accepted_value = ag.accepted_value ∨
     (decideAg maxU ag).accepted_value =
       ag.accepted_value ∪ ag.proposed_value) := by
  refine ⟨rfl, ?_⟩
  simp only [decideAg]
  split
  · exact Or.inr rfl
  · exact Or.inl rfl

/-- `_check_nacks` keeps both value sets and only ever emits proposals
from `i` carrying the current `proposed_value`. -/
theorem checkNacks_spec (n i : ℕ) (ag : Agreement) :
    (checkNacks n i ag).1.proposed_value = ag.proposed_value ∧
    (checkNacks n i ag).1.accepted_value = ag.accepted_value ∧
    ∀ m ∈ (checkNacks n i ag).2, ∃ dst pnr,
      m = Msg.proposal i dst pnr ag.proposed_value := by
  unfold checkNacks
  split
  · refine ⟨rfl, rfl, ?_⟩
    intro m hm
    simp only [broadcastProposal, List.mem_map, List.mem_range] at hm
    obtain ⟨dst, _, rfl⟩ := hm
    exact ⟨dst, _, rfl⟩
  · refine ⟨rfl, rfl, ?_⟩
    intro m hm
    simp at hm

/-- `_handle_ack` keeps `proposed_value`, at most folds it into
`accepted_value`, decides (if at all) on exactly `proposed_value`, and
only ever emits proposals from `i` carrying `proposed_value`. -/
theorem handleAck_spec (n maxU i pnr : ℕ) (ag : Agreement) :
    (handleAck n maxU i pnr ag).1.proposed_value = ag.proposed_value ∧
    ((handleAck n maxU i pnr ag).1.accepted_value = ag.accepted_value ∨
     (handleAck n maxU i pnr ag).1.accepted_value =
       ag.accepted_value ∪ ag.proposed_value) ∧
    (∀ d, (handleAck n maxU i pnr ag).2.2 = some d →
       d = ag.proposed_value) ∧
    (∀ m ∈ (handleAck n maxU i pnr ag).2.1, ∃ dst pnr2,
       m = Msg.proposal i dst pnr2 ag.proposed_value) := by
  simp only [handleAck]
  split
  · exact ⟨rfl, Or.inl rfl, fun d hd => by simp at hd,
      fun m hm => by simp at hm⟩
  · split
    · refine ⟨(decideAg_spec maxU _).1, (decideAg_spec maxU _).2, ?_,
        fun m hm => by simp at hm⟩
      intro d hd
      simp only [Option.some.injEq] at hd
      exact hd.symm
    · exact ⟨(checkNacks_spec n i { ag with ack_count := ag.ack_count + 1 }).1,
        Or.inl (checkNacks_spec n i { ag with ack_count := ag.ack_count + 1 }).2.1,
        fun d hd => by simp at hd,
        fun m hm =>
          (checkNacks_spec n i { ag with ack_count := ag.ack_count + 1 }).2.2 m hm⟩

/-- `_handle_nack` grows `proposed_value` by at most the carried values,
grows `accepted_value` by at most the new `proposed_value`, decides (if
at all) on exactly the new `proposed_value`, and only ever emits
proposals from `i` carrying it. -/
theorem handleNack_spec (n maxU i pnr : ℕ) (values : Finset ℕ)
    (ag : Agreement) :
    ((handleNack n maxU i pnr values ag).1.proposed_value =
       ag.proposed_value ∨
     (handleNack n maxU i pnr values ag).1.proposed_value =
       ag.proposed_value ∪ values) ∧
    ((handleNack n maxU i pnr values ag).1.accepted_value =
       ag.accepted_value ∨
     (handleNack n maxU i pnr values ag).1.accepted_value =
       ag.accepted_value ∪ (ag.proposed_value ∪ values)) ∧
    (∀ d, (handleNack n maxU i pnr values ag).2.2 = some d →
       d = ag.proposed_value ∪ values) ∧
    (∀ m ∈ (handleNack n maxU i pnr values ag).2.1, ∃ dst pnr2,
       m = Msg.proposal i dst pnr2 (ag.proposed_value ∪ values)) := by
  simp only [handleNack]
  split
  · exact ⟨Or.inl rfl, Or.inl rfl, fun d hd => by simp at hd,
      fun m hm => by simp at hm⟩
  · split
    · refine ⟨Or.inr (decideAg_spec maxU _).1, (decideAg_spec maxU _).2, ?_,
        fun m hm => by simp at hm⟩
      intro d hd
      simp only [Option.some.injEq] at hd
      exact hd.symm
    · exact ⟨Or.inr (checkNacks_spec n i { ag with
          proposed_value := ag.proposed_value ∪ values,
          nack_count := ag.nack_count + 1 }).1,
        Or.inl (checkNacks_spec n i { ag with
          proposed_value := ag.proposed_value ∪ values,
          nack_count := ag.nack_count + 1 }).2.1,
        fun d hd => by simp at hd,
        fun m hm => (checkNacks_spec n i { ag with
          proposed_value := ag.proposed_value ∪ values,
          nack_count := ag.nack_count + 1 }).2.2 m hm⟩

/-- `_handle_proposal` unions the incoming values into `accepted_value`
and replies with an Ack or a Nack carrying the difference. -/
theorem handleProposal_spec (src pnr : ℕ) (values : Finset ℕ)
    (ag : Agreement) :
    (handleProposal src pnr values ag).1 =
      { ag with accepted_value := ag.accepted_value ∪ values } ∧
    ((handleProposal src pnr values ag).2 = Msg.ack src pnr ∨
     (handleProposal src pnr values ag).2 =
       Msg.nack src pnr (ag.accepted_value \ values)) := by
  unfold handleProposal
  split
  · exact ⟨rfl, Or.inl rfl⟩
  · exact ⟨rfl, Or.inr rfl⟩

/-- `propose` sets `proposed_value` to the union with the user values,
grows `accepted_value` by at most the new `proposed_value`, decides (if
at all) on exactly the new `proposed_value`, and only ever broadcasts
proposals from `i` carrying it. -/
theorem proposeAg_spec (n maxU i : ℕ) (vals : Finset ℕ) (ag : Agreement) :
    (proposeAg n maxU i vals ag).1.proposed_value =
      ag.proposed_value ∪ vals ∧
    ((proposeAg n maxU i vals ag).1.accepted_value = ag.accepted_value ∨
     (proposeAg n maxU i vals ag).1.accepted_value =
       ag.accepted_value ∪ (ag.proposed_value ∪ vals)) ∧
    (∀ d, (proposeAg n maxU i vals ag).2.2 = some d →
       d = ag.proposed_value ∪ vals) ∧
    (∀ m ∈ (proposeAg n maxU i vals ag).2.1, ∃ dst pnr2,
       m = Msg.proposal i dst pnr2 (ag.proposed_value ∪ vals)) := by
  simp only [proposeAg]
  split
  · refine ⟨(decideAg_spec maxU _).1, (decideAg_spec maxU _).2, ?_,
      fun m hm => by simp at hm⟩
    intro d hd
    simp only [Option.some.injEq] at hd
    exact hd.symm
  · refine ⟨rfl, Or.inl rfl, fun d hd => by simp at hd, ?_⟩
    intro m hm
    simp only [broadcastProposal, List.mem_map, List.mem_range] at hm
    obtain ⟨dst, _, rfl⟩ := hm
    exact ⟨dst, _, rfl⟩

/-! ### Input-union lemmas -/

/-- Recording a new input preserves membership in the input union. -/
theorem inUf_mono_update (inputs : ℕ → Option (Finset ℕ)) (i : ℕ)
    (vals : Finset ℕ) (h : inputs i = none) (x : ℕ)
    (hx : InUf inputs x) :
    InUf (Function.update inputs i (some vals)) x := by
  obtain ⟨j, v, hj, hxv⟩ := hx
  have hji : j ≠ i := by
    intro he
    rw [he, h] at hj
    exact Option.noConfusion hj
  exact ⟨j, v, by rw [Function.update_noteq hji]; exact hj, hxv⟩

/-- A newly recorded input is inside the input union. -/
theorem inUf_update_self (inputs : ℕ → Option (Finset ℕ)) (i : ℕ)
    (vals : Finset ℕ) (x : ℕ) (hx : x ∈ vals) :
    InUf (Function.update inputs i (some vals)) x :=
  ⟨i, vals, Function.update_same i (some vals) inputs, hx⟩

/-- A message of the pool with the delivered one removed was in the pool. -/
theorem mem_msgs_of_mem_rest {l1 l2 : List Msg} (m0 : Msg) {m : Msg}
    (h : m ∈ l1 ++ l2) : m ∈ l1 ++ m0 :: l2 := by
  rcases List.mem_append.mp h with h | h
  · exact List.mem_append.mpr (Or.inl h)
  · exact List.mem_append.mpr (Or.inr (List.mem_cons_of_mem _ h))

/-! ### Preservation of the validity invariant -/

/-- `propose` preserves the validity invariant. -/
theorem invC1_propose (n maxU : ℕ) (net : LANet) (i : ℕ) (vals : Finset ℕ)
    (ag' : Agreement) (out : List Msg) (dec : Option (Finset ℕ))
    (hnone : net.inputs i = none)
    (hr : proposeAg n maxU i vals (net.states i) = (ag', out, dec))
    (hinv : InvC1 net) :
    InvC1 { states := Function.update net.states i ag',
            msgs := net.msgs ++ out,
            inputs := Function.update net.inputs i (some vals),
            decision := updDecision net.decision i dec } := by
  obtain ⟨input_sub, prop_sub, acc_sub, msg_sub, msg_prop, dec_ok⟩ := hinv
  have hP : ag'.proposed_value = (net.states i).proposed_value ∪ vals := by
    have h := (proposeAg_spec n maxU i vals (net.states i)).1
    rw [hr] at h
    exact h
  have hA : ag'.accepted_value = (net.states i).accepted_value ∨
      ag'.accepted_value = (net.states i).accepted_value ∪
        ((net.states i).proposed_value ∪ vals) := by
    have h := (proposeAg_spec n maxU i vals (net.states i)).2.1
    rw [hr] at h
    exact h
  have hD : ∀ d, dec = some d →
      d = (net.states i).proposed_value ∪ vals := by
    have h := (proposeAg_spec n maxU i vals (net.states i)).2.2.1
    rw [hr] at h
    exact h
  have hO : ∀ m ∈ out, ∃ dst pnr2,
      m = Msg.proposal i dst pnr2 ((net.states i).proposed_value ∪ vals) := by
    have h := (proposeAg_spec n maxU i vals (net.states i)).2.2.2
    rw [hr] at h
    exact h
  have hInU' : ∀ x, InU net x →
      InUf (Function.update net.inputs i (some vals)) x :=
    fun x hx => inUf_mono_update net.inputs i vals hnone x hx
  have hPx : ∀ x ∈ (net.states i).proposed_value ∪ vals,
      InUf (Function.update net.inputs i (some vals)) x := by
    intro x hx
    rcases Finset.mem_union.mp hx with hx | hx
    · exact hInU' x (prop_sub i x hx)
    · exact inUf_update_self net.inputs i vals x hx
  refine ⟨?_, ?_, ?_, ?_, ?_, ?_⟩
  · dsimp only
    intro j v hj
    by_cases hji : j = i
    · subst hji
      rw [Function.update_same] at hj ⊢
      obtain rfl : vals = v := Option.some.inj hj
      rw [hP]
      exact Finset.subset_union_right
    · rw [Function.update_noteq hji] at hj ⊢
      exact input_sub j v hj
  · dsimp only
    intro j x hx
    by_cases hji : j = i
    · subst hji
      rw [Function.update_same, hP] at hx
      exact hPx x hx
    · rw [Function.update_noteq hji] at hx
      exact hInU' x (prop_sub j x hx)
  · dsimp only
    intro j x hx
    by_cases hji : j = i
    · subst hji
      rw [Function.update_same] at hx
      rcases hA with hA | hA
      · rw [hA] at hx
        exact hInU' x (acc_sub j x hx)
      · rw [hA] at hx
        rcases Finset.mem_union.mp hx with hx | hx
        · exact hInU' x (acc_sub j x hx)
        · exact hPx x hx
    · rw [Function.update_noteq hji] at hx
      exact hInU' x (acc_sub j x hx)
  · dsimp only
    intro m hm x hx
    rcases List.mem_append.mp hm with hm | hm
    · exact hInU' x (msg_sub m hm x hx)
    · obtain ⟨dst, pnr2, rfl⟩ := hO m hm
      simp only [msgValues] at hx
      exact hPx x hx
  · dsimp only
    intro m hm
    rcases List.mem_append.mp hm with hm | hm
    · by_cases hpi : proposerOf m = i
      · rw [hpi, Function.update_same]
        rfl
      · rw [Function.update_noteq hpi]
        exact msg_prop m hm
    · obtain ⟨dst, pnr2, rfl⟩ := hO m hm
      simp [proposerOf]
  · dsimp only
    intro j d hd
    cases dec with
    | none =>
        simp only [updDecision] at hd
        obtain ⟨⟨v, hv, hvd⟩, hdU⟩ := dec_ok j d hd
        have hji : j ≠ i := by
          intro he
          rw [he, hnone] at hv
          exact Option.noConfusion hv
        exact ⟨⟨v, by rw [Function.update_noteq hji]; exact hv, hvd⟩,
          fun x hx => hInU' x (hdU x hx)⟩
    | some d0 =>
        simp only [updDecision] at hd
        by_cases hji : j = i
        · subst hji
          rw [Function.update_same] at hd
          have hdd : d = d0 := (Option.some.inj hd).symm
          have hd0 : d0 = (net.states j).proposed_value ∪ vals := hD d0 rfl
          refine ⟨⟨vals, ?_, ?_⟩, ?_⟩
          · rw [Function.update_same]
          · rw [hdd, hd0]
            exact Finset.subset_union_right
          · intro x hx
            rw [hdd, hd0] at hx
            exact hPx x hx
        · rw [Function.update_noteq hji] at hd
          obtain ⟨⟨v, hv, hvd⟩, hdU⟩ := dec_ok j d hd
          exact ⟨⟨v, by rw [Function.update_noteq hji]; exact hv, hvd⟩,
            fun x hx => hInU' x (hdU x hx)⟩

/-- Delivering a Proposal preserves the validity invariant. -/
theorem invC1_deliverProposal (net : LANet) (src dst pnr : ℕ)
    (values : Finset ℕ) (l1 l2 : List Msg) (ag' : Agreement) (reply : Msg)
    (hm : net.msgs = l1 ++ Msg.proposal src dst pnr values :: l2)
    (hr : handleProposal src pnr values (net.states dst) = (ag', reply))
    (hinv : InvC1 net) :
    InvC1 { states := Function.update net.states dst ag',
            msgs := (l1 ++ l2) ++ [reply],
            inputs := net.inputs,
            decision := net.decision } := by
  obtain ⟨input_sub, prop_sub, acc_sub, msg_sub, msg_prop, dec_ok⟩ := hinv
  have hcons : Msg.proposal src dst pnr values ∈ net.msgs := by
    rw [hm]
    exact List.mem_append.mpr (Or.inr (List.mem_cons_self _ _))
  have hvals : ∀ x ∈ values, InU net x := fun x hx => msg_sub _ hcons x hx
  have hag : ag' = { net.states dst with
      accepted_value := (net.states dst).accepted_value ∪ values } := by
    have h := (handleProposal_spec src pnr values (net.states dst)).1
    rw [hr] at h
    exact h
  have hreply : reply = Msg.ack src pnr ∨
      reply = Msg.nack src pnr ((net.states dst).accepted_value \ values) := by
    have h := (handleProposal_spec src pnr values (net.states dst)).2
    rw [hr] at h
    exact h
  have hold : ∀ m ∈ l1 ++ l2, m ∈ net.msgs := fun m h => by
    rw [hm]
    exact mem_msgs_of_mem_rest _ h
  refine ⟨?_, ?_, ?_, ?_, ?_, ?_⟩
  · dsimp only
    intro j v hj
    by_cases hji : j = dst
    · subst hji
      rw [Function.update_same, hag]
      exact input_sub j v hj
    · rw [Function.update_noteq hji]
      exact input_sub j v hj
  · dsimp only
    intro j x hx
    by_cases hji : j = dst
    · subst hji
      rw [Function.update_same, hag] at hx
      exact prop_sub j x hx
    · rw [Function.update_noteq hji] at hx
      exact prop_sub j x hx
  · dsimp only
    intro j x hx
    by_cases hji : j = dst
    · subst hji
      rw [Function.update_same, hag] at hx
      rcases Finset.mem_union.mp hx with hx | hx
      · exact acc_sub j x hx
      · exact hvals x hx
    · rw [Function.update_noteq hji] at hx
      exact acc_sub j x hx
  · dsimp only
    intro m hm2 x hx
    rcases List.mem_append.mp hm2 with hm2 | hm2
    · exact msg_sub m (hold m hm2) x hx
    · have hm3 : m = reply := by simpa using hm2
      subst hm3
      rcases hreply with hr2 | hr2 <;> subst hr2
      · simp [msgValues] at hx
      · simp only [msgValues] at hx
        exact acc_sub dst x (Finset.mem_sdiff.mp hx).1
  · dsimp only
    intro m hm2
    rcases List.mem_append.mp hm2 with hm2 | hm2
    · exact msg_prop m (hold m hm2)
    · have hm3 : m = reply := by simpa using hm2
      subst hm3
      have hsrc := msg_prop _ hcons
      rcases hreply with hr2 | hr2 <;> subst hr2 <;> exact hsrc
  · dsimp only
    intro j d hd
    exact dec_ok j d hd

/-- Delivering an Ack preserves the validity invariant. -/
theorem invC1_deliverAck (n maxU : ℕ) (net : LANet) (dst pnr : ℕ)
    (l1 l2 : List Msg) (ag' : Agreement) (out : List Msg)
    (dec : Option (Finset ℕ))
    (hm : net.msgs = l1 ++ Msg.ack dst pnr :: l2)
    (hr : handleAck n maxU dst pnr (net.states dst) = (ag', out, dec))
    (hinv : InvC1 net) :
    InvC1 { states := Function.update net.states dst ag',
            msgs := (l1 ++ l2) ++ out,
            inputs := net.inputs,
            decision := updDecision net.decision dst dec } := by
  obtain ⟨input_sub, prop_sub, acc_sub, msg_sub, msg_prop, dec_ok⟩ := hinv
  have hcons : Msg.ack dst pnr ∈ net.msgs := by
    rw [hm]
    exact List.mem_append.mpr (Or.inr (List.mem_cons_self _ _))
  have hdstSome : (net.inputs dst).isSome = true := msg_prop _ hcons
  have hold : ∀ m ∈ l1 ++ l2, m ∈ net.msgs := fun m h => by
    rw [hm]
    exact mem_msgs_of_mem_rest _ h
  have hP : ag'.proposed_value = (net.states dst).proposed_value := by
    have h := (handleAck_spec n maxU dst pnr (net.states dst)).1
    rw [hr] at h
    exact h
  have hA : ag'.accepted_value = (net.states dst).accepted_value ∨
      ag'.accepted_value = (net.states dst).accepted_value ∪
        (net.states dst).proposed_value := by
    have h := (handleAck_spec n maxU dst pnr (net.states dst)).2.1
    rw [hr] at h
    exact h
  have hD : ∀ d, dec = some d → d = (net.states dst).proposed_value := by
    have h := (handleAck_spec n maxU dst pnr (net.states dst)).2.2.1
    rw [hr] at h
    exact h
  have hO : ∀ m ∈ out, ∃ dst2 pnr2,
      m = Msg.proposal dst dst2 pnr2 (net.states dst).proposed_value := by
    have h := (handleAck_spec n maxU dst pnr (net.states dst)).2.2.2
    rw [hr] at h
    exact h
  refine ⟨?_, ?_, ?_, ?_, ?_, ?_⟩
  · dsimp only
    intro j v hj
    by_cases hji : j = dst
    · subst hji
      rw [Function.update_same, hP]
      exact input_sub j v hj
    · rw [Function.update_noteq hji]
      exact input_sub j v hj
  · dsimp only
    intro j x hx
    by_cases hji : j = dst
    · subst hji
      rw [Function.update_same, hP] at hx
      exact prop_sub j x hx
    · rw [Function.update_noteq hji] at hx
      exact prop_sub j x hx
  · dsimp only
    intro j x hx
    by_cases hji : j = dst
    · subst hji
      rw [Function.update_same] at hx
      rcases hA with hA | hA
      · rw [hA] at hx
        exact acc_sub j x hx
      · rw [hA] at hx
        rcases Finset.mem_union.mp hx with hx | hx
        · exact acc_sub j x hx
        · exact prop_sub j x hx
    · rw [Function.update_noteq hji] at hx
      exact acc_sub j x hx
  · dsimp only
    intro m hm2 x hx
    rcases List.mem_append.mp hm2 with hm2 | hm2
    · exact msg_sub m (hold m hm2) x hx
    · obtain ⟨dst2, pnr2, rfl⟩ := hO m hm2
      simp only [msgValues] at hx
      exact prop_sub dst x hx
  · dsimp only
    intro m hm2
    rcases List.mem_append.mp hm2 with hm2 | hm2
    · exact msg_prop m (hold m hm2)
    · obtain ⟨dst2, pnr2, rfl⟩ := hO m hm2
      exact hdstSome
  · dsimp only
    intro j d hd
    cases dec with
    | none =>
        simp only [updDecision] at hd
        exact dec_ok j d hd
    | some d0 =>
        simp only [updDecision] at hd
        by_cases hji : j = dst
        · subst hji
          rw [Function.update_same] at hd
          have hdd : d = d0 := (Option.some.inj hd).symm
          have hd0 : d0 = (net.states j).proposed_value := hD d0 rfl
          obtain ⟨v, hv⟩ := Option.isSome_iff_exists.mp hdstSome
          refine ⟨⟨v, hv, ?_⟩, ?_⟩
          · rw [hdd, hd0]
            exact input_sub j v hv
          · intro x hx
            rw [hdd, hd0] at hx
            exact prop_sub j x hx
        · rw [Function.update_noteq hji] at hd
          exact dec_ok j d hd

/-- Delivering a Nack preserves the validity invariant. -/
theorem invC1_deliverNack (n maxU : ℕ) (net : LANet) (dst pnr : ℕ)
    (values : Finset ℕ) (l1 l2 : List Msg) (ag' : Agreement)
    (out : List Msg) (dec : Option (Finset ℕ))
    (hm : net.msgs = l1 ++ Msg.nack dst pnr values :: l2)
    (hr : handleNack n maxU dst pnr values (net.states dst) = (ag', out, dec))
    (hinv : InvC1 net) :
    InvC1 { states := Function.update net.states dst ag',
            msgs := (l1 ++ l2) ++ out,
            inputs := net.inputs,
            decision := updDecision net.decision dst dec } := by
  obtain ⟨input_sub, prop_sub, acc_sub, msg_sub, msg_prop, dec_ok⟩ := hinv
  have hcons : Msg.nack dst pnr values ∈ net.msgs := by
    rw [hm]
    exact List.mem_append.mpr (Or.inr (List.mem_cons_self _ _))
  have hdstSome : (net.inputs dst).isSome = true := msg_prop _ hcons
  have hvals : ∀ x ∈ values, InU net x := fun x hx => msg_sub _ hcons x hx
  have hold : ∀ m ∈ l1 ++ l2, m ∈ net.msgs := fun m h => by
    rw [hm]
    exact mem_msgs_of_mem_rest _ h
  have hPx : ∀ x ∈ (net.states dst).proposed_value ∪ values, InU net x := by
    intro x hx
    rcases Finset.mem_union.mp hx with hx | hx
    · exact prop_sub dst x hx
    · exact hvals x hx
  have hP : ag'.proposed_value = (net.states dst).proposed_value ∨
      ag'.proposed_value = (net.states dst).proposed_value ∪ values := by
    have h := (handleNack_spec n maxU dst pnr values (net.states dst)).1
    rw [hr] at h
    exact h
  have hA : ag'.accepted_value = (net.states dst).accepted_value ∨
      ag'.accepted_value = (net.states dst).accepted_value ∪
        ((net.states dst).proposed_value ∪ values) := by
    have h := (handleNack_spec n maxU dst pnr values (net.states dst)).2.1
    rw [hr] at h
    exact h
  have hD : ∀ d, dec = some d →
      d = (net.states dst).proposed_value ∪ values := by
    have h := (handleNack_spec n maxU dst pnr values (net.states dst)).2.2.1
    rw [hr] at h
    exact h
  have hO : ∀ m ∈ out, ∃ dst2 pnr2,
      m = Msg.proposal dst dst2 pnr2
        ((net.states dst).proposed_value ∪ values) := by
    have h := (handleNack_spec n maxU dst pnr values (net.states dst)).2.2.2
    rw [hr] at h
    exact h
  refine ⟨?_, ?_, ?_, ?_, ?_, ?_⟩
  · dsimp only
    intro j v hj
    by_cases hji : j = dst
    · subst hji
      rw [Function.update_same]
      rcases hP with hP | hP <;> rw [hP]
      · exact input_sub j v hj
      · exact subset_trans (input_sub j v hj) Finset.subset_union_left
    · rw [Function.update_noteq hji]
      exact input_sub j v hj
  · dsimp only
    intro j x hx
    by_cases hji : j = dst
    · subst hji
      rw [Function.update_same] at hx
      rcases hP with hP | hP <;> rw [hP] at hx
      · exact prop_sub j x hx
      · exact hPx x hx
    · rw [Function.update_noteq hji] at hx
      exact prop_sub j x hx
  · dsimp only
    intro j x hx
    by_cases hji : j = dst
    · subst hji
      rw [Function.update_same] at hx
      rcases hA with hA | hA <;> rw [hA] at hx
      · exact acc_sub j x hx
      · rcases Finset.mem_union.mp hx with hx | hx
        · exact acc_sub j x hx
        · exact hPx x hx
    · rw [Function.update_noteq hji] at hx
      exact acc_sub j x hx
  · dsimp only
    intro m hm2 x hx
    rcases List.mem_append.mp hm2 with hm2 | hm2
    · exact msg_sub m (hold m hm2) x hx
    · obtain ⟨dst2, pnr2, rfl⟩ := hO m hm2
      simp only [msgValues] at hx
      exact hPx x hx
  · dsimp only
    intro m hm2
    rcases List.mem_append.mp hm2 with hm2 | hm2
    · exact msg_prop m (hold m hm2)
    · obtain ⟨dst2, pnr2, rfl⟩ := hO m hm2
      exact hdstSome
  · dsimp only
    intro j d hd
    cases dec with
    | none =>
        simp only [updDecision] at hd
        exact dec_ok j d hd
    | some d0 =>
        simp only [updDecision] at hd
        by_cases hji : j = dst
        · subst hji
          rw [Function.update_same] at hd
          have hdd : d = d0 := (Option.some.inj hd).symm
          have hd0 : d0 = (net.states j).proposed_value ∪ values := hD d0 rfl
          obtain ⟨v, hv⟩ := Option.isSome_iff_exists.mp hdstSome
          refine ⟨⟨v, hv, ?_⟩, ?_⟩
          · rw [hdd, hd0]
            exact subset_trans (input_sub j v hv) Finset.subset_union_left
          · intro x hx
            rw [hdd, hd0] at hx
            exact hPx x hx
        · rw [Function.update_noteq hji] at hd
          exact dec_ok j d hd

/-- One protocol step preserves the validity invariant. -/
theorem invC1_step (n maxU : ℕ) (net net' : LANet) (hinv : InvC1 net)
    (hs : LAStep n maxU net net') : InvC1 net' := by
  cases hs with
  | propose i vals ag' out dec hi hnone hr hnet =>
      subst hnet
      exact invC1_propose n maxU net i vals ag' out dec hnone hr hinv
  | deliverProposal src dst pnr values l1 l2 ag' reply hm hr hnet =>
      subst hnet
      exact invC1_deliverProposal net src dst pnr values l1 l2 ag' reply
        hm hr hinv
  | deliverAck dst pnr l1 l2 ag' out dec hm hr hnet =>
      subst hnet
      exact invC1_deliverAck n maxU net dst pnr l1 l2 ag' out dec hm hr hinv
  | deliverNack dst pnr values l1 l2 ag' out dec hm hr hnet =>
      subst hnet
      exact invC1_deliverNack n maxU net dst pnr values l1 l2 ag' out dec
        hm hr hinv

/-- The validity invariant holds in the initial network. -/
theorem invC1_init : InvC1 LANet.init := by
  refine ⟨?_, ?_, ?_, ?_, ?_, ?_⟩
  · intro i v hj
    simp [LANet.init] at hj
  · intro i x hx
    simp [LANet.init, Agreement.init] at hx
  · intro i x hx
    simp [LANet.init, Agreement.init] at hx
  · intro m hm
    simp [LANet.init] at hm
  · intro m hm
    simp [LANet.init] at hm
  · intro i d hd
    simp [LANet.init] at hd

/-- The validity invariant holds in every reachable network state. -/
theorem invC1_reachable (n maxU : ℕ) (net : LANet)
    (h : LAReachable n maxU net) : InvC1 net := by
  induction h with
  | init => exact invC1_init
  | step net net' h hs ih => exact invC1_step n maxU net net' ih hs

/-! ### LA validity (claim C1) -/

/-- Claim C1 (LA validity): in every reachable network state of one
agreement number, every node `i` that decided did propose, its input is
contained in its decided set, and every value of the decided set belongs
to the union of the inputs proposed by any node for this agreement
number (`proposed_value` starts from the user's input, grows only by
values taken from peers, and the decision callback receives exactly the
current `proposed_value`). -/
theorem claim_C1_la_validity (n maxU : ℕ) (net : LANet)
    (h : LAReachable n maxU net) (i : ℕ) (d : Finset ℕ)
    (hd : net.decision i = some d) :
    (∃ v, net.inputs i = some v ∧ v ⊆ d) ∧ ∀ x ∈ d, InU net x :=
  (invC1_reachable n maxU net h).dec_ok i d hd

/-- Witness for claim C1: one process (n = 1, `unique_proposals` = 1)
proposes `{5}` and decides locally; its decision `{5}` contains its input
and stays inside the union of inputs. -/
theorem claim_C1_witness :
    (∃ v, c1WitNet.inputs 0 = some v ∧ v ⊆ ({5} : Finset ℕ)) ∧
    ∀ x ∈ ({5} : Finset ℕ), InU c1WitNet x :=
  claim_C1_la_validity 1 1 c1WitNet
    (LAReachable.step _ _ LAReachable.init
      (LAStep.propose LANet.init c1WitNet 0 {5} c1AgD [] (some {5})
        (by decide) rfl (by decide) rfl))
    0 {5} (by decide)

/-! ### LA consistency (claim C2) -/

/-- Claim C2 (LA consistency, settled against the code): the decision
rule `2 * ack_count >= N` does not guarantee an intersection of the ack
quorums for even `N`. In a reachable execution with two processes and
`unique_proposals = 3`, process 0 proposes `{1}`, process 1 proposes
`{2}`, each one receives its own proposal back, acks itself, and decides
on its single self-ack (`2 * 1 >= 2`): process 0 decides `{1}`, process 1
decides `{2}`, and the two decided sets are incomparable — contradicting
the claim (and the consistency property documented in
`lattice_agreement.hpp`). -/
theorem claim_C2_consistency_violation :
    ∃ net : LANet, LAReachable 2 3 net ∧
      net.decision 0 = some {1} ∧ net.decision 1 = some {2} ∧
      ¬(({1} : Finset ℕ) ⊆ ({2} : Finset ℕ) ∨
        ({2} : Finset ℕ) ⊆ ({1} : Finset ℕ)) := by
  have h1 : LAReachable 2 3 c2Net1 :=
    LAReachable.step _ _ LAReachable.init
      (LAStep.propose LANet.init c2Net1 0 {1} c2AgP0
        [Msg.proposal 0 0 0 {1}, Msg.proposal 0 1 0 {1}] none
        (by decide) rfl (by decide) rfl)
  have h2 : LAReachable 2 3 c2Net2 :=
    LAReachable.step _ _ h1
      (LAStep.propose c2Net1 c2Net2 1 {2} c2AgP1
        [Msg.proposal 1 0 0 {2}, Msg.proposal 1 1 0 {2}] none
        (by decide) (by decide) (by decide) rfl)
  have h3 : LAReachable 2 3 c2Net3 :=
    LAReachable.step _ _ h2
      (LAStep.deliverProposal c2Net2 c2Net3 0 0 0 {1} []
        [Msg.proposal 0 1 0 {1}, Msg.proposal 1 0 0 {2},
         Msg.proposal 1 1 0 {2}]
        c2AgA0 (Msg.ack 0 0) rfl (by decide) rfl)
  have h4 : LAReachable 2 3 c2Net4 :=
    LAReachable.step _ _ h3
      (LAStep.deliverAck c2Net3 c2Net4 0 0
        [Msg.proposal 0 1 0 {1}, Msg.proposal 1 0 0 {2},
         Msg.proposal 1 1 0 {2}]
        [] c2AgD0 [] (some {1}) rfl (by decide) rfl)
  have h5 : LAReachable 2 3 c2Net5 :=
    LAReachable.step _ _ h4
      (LAStep.deliverProposal c2Net4 c2Net5 1 1 0 {2}
        [Msg.proposal 0 1 0 {1}, Msg.proposal 1 0 0 {2}] []
        c2AgA1 (Msg.ack 1 0) rfl (by decide) rfl)
  have h6 : LAReachable 2 3 c2Net6 :=
    LAReachable.step _ _ h5
      (LAStep.deliverAck c2Net5 c2Net6 1 0
        [Msg.proposal 0 1 0 {1}, Msg.proposal 1 0 0 {2}] []
        c2AgD1 [] (some {2}) rfl (by decide) rfl)
  exact ⟨c2Net6, h6, by decide, by decide, by decide⟩
